import Mathlib

/-!
Verification of the Exonum storage substrate and its example services.

This file gives a shallow embedding of the code under scrutiny:

* `src/exonum/src/storage/memorydb.rs` — the `MemoryDB` in-memory backend:
  a `BTreeMap<Vec<u8>, Vec<u8>>` together with `snapshot`, `merge`, `get`,
  `contains`, `iter` (a peekable range cursor).  The `BTreeMap` is embedded
  as an association list strictly sorted by the lexicographic order on byte
  sequences, which is the representation invariant the Rust type maintains.
* `src/exonum/src/runtime/rust/tests.rs` — the test service whose
  `method_a` re-entrantly dispatches `method_b` through the dispatcher.
* `src/tests/test_exonum_time.rs` — the byzantine-tolerant time
  consolidation policy (`get_expected_storage_time`) and the `TxTime`
  transaction behaviour its tests pin down.

Machine integers (`u8`, `u64`) are embedded as `Nat`; none of the verified
operations can overflow or depend on the word size.
-/

namespace Exonum

/-! ## Byte sequences and their lexicographic order

`Vec<u8>` keys are embedded as `List Nat`.  `bytesLt` is the strict
lexicographic order used by `Ord for Vec<u8>`: it compares element-wise
and a strict prefix is smaller than its extensions. -/

abbrev Bytes := List Nat

def bytesLt : Bytes → Bytes → Bool
  | _, [] => false
  | [], _ :: _ => true
  | a :: as, b :: bs =>
    if a < b then true
    else if b < a then false
    else bytesLt as bs

/-! ## The sorted association-list embedding of `BTreeMap<Vec<u8>, Vec<u8>>` -/

/-- `BTreeMap::get` (first entry whose key equals `k`). -/
def mapGet (k : Bytes) : List (Bytes × Bytes) → Option Bytes
  | [] => none
  | (k', v) :: rest => if k' = k then some v else mapGet k rest

/-- `BTreeMap::contains_key`. -/
def mapContains (k : Bytes) (m : List (Bytes × Bytes)) : Bool :=
  m.any (fun p => decide (p.1 = k))

/-- `BTreeMap::insert`: place `(k, v)` at its ordered position, replacing an
existing binding for `k`. -/
def mapInsert (k v : Bytes) : List (Bytes × Bytes) → List (Bytes × Bytes)
  | [] => [(k, v)]
  | (k', v') :: rest =>
    if bytesLt k k' then (k, v) :: (k', v') :: rest
    else if k' = k then (k, v) :: rest
    else (k', v') :: mapInsert k v rest

/-- `BTreeMap::remove`: drop the first binding for `k`. -/
def mapRemove (k : Bytes) : List (Bytes × Bytes) → List (Bytes × Bytes)
  | [] => []
  | (k', v') :: rest => if k' = k then rest else (k', v') :: mapRemove k rest

/-- The `BTreeMap` representation invariant: keys strictly ascending. -/
def mapSorted (m : List (Bytes × Bytes)) : Prop :=
  m.Pairwise (fun a b => bytesLt a.1 b.1 = true)

instance (m : List (Bytes × Bytes)) : Decidable (mapSorted m) := by
  unfold mapSorted
  infer_instance

/-! ## `MemoryDB` (src/exonum/src/storage/memorydb.rs) -/

/-- A single buffered mutation (`Change` in `storage`). -/
inductive Change
  | put (value : Bytes)
  | delete
deriving DecidableEq

/-- A finalized change-set: a `BTreeMap<Vec<u8>, Change>`, embedded as its
entry list (keys unique, which `merge` theorems take as a hypothesis). -/
abbrev Patch := List (Bytes × Change)

/-- Storage-level error (`Error` behind `storage::Result`). -/
inductive StorageError
  | ioError
deriving DecidableEq

structure MemoryDB where
  map : List (Bytes × Bytes)
deriving DecidableEq

/-- One iteration of the `for (key, change) in patch` loop in `MemoryDB::merge`. -/
def applyChange (m : List (Bytes × Bytes)) : Bytes × Change → List (Bytes × Bytes)
  | (k, Change.put v) => mapInsert k v m
  | (k, Change.delete) => mapRemove k m

/-- `MemoryDB::snapshot`: boxes a clone of the whole map. -/
def MemoryDB.snapshot (db : MemoryDB) : MemoryDB := db

/-- `MemoryDB::merge`: applies every change of the patch, then returns `Ok(())`.
The mutated receiver is returned alongside, making the state passing explicit. -/
def MemoryDB.merge (db : MemoryDB) (patch : Patch) : Except StorageError MemoryDB :=
  Except.ok ⟨patch.foldl applyChange db.map⟩

/-- `Snapshot::get` for `MemoryDB`. -/
def MemoryDB.get (db : MemoryDB) (key : Bytes) : Option Bytes :=
  mapGet key db.map

/-- `Snapshot::contains` for `MemoryDB`. -/
def MemoryDB.contains (db : MemoryDB) (key : Bytes) : Bool :=
  mapContains key db.map

/-! ## Store worlds: a store plus the snapshots handed out so far

`Database::snapshot` boxes a clone; later `merge`s mutate only the store.
To express "a snapshot taken before the merge", the world records every
snapshot that has been handed out, identified by its handle (its index). -/

structure World where
  store : MemoryDB
  snaps : List MemoryDB
deriving DecidableEq

/-- Take a snapshot of the store; returns the new world and the handle of
the snapshot just taken. -/
def World.snapshot (w : World) : World × Nat :=
  ({ w with snaps := w.snaps ++ [w.store.snapshot] }, w.snaps.length)

/-- Merge a patch into the store; the snapshots handed out are untouched
(each one owns its clone of the map). -/
def World.merge (w : World) (patch : Patch) : Except StorageError World :=
  match w.store.merge patch with
  | Except.ok db' => Except.ok { w with store := db' }
  | Except.error e => Except.error e

/-- Read through a previously taken snapshot (`none` if the handle is bad). -/
def World.snapGet (w : World) (h : Nat) (key : Bytes) : Option (Option Bytes) :=
  (w.snaps[h]?).map (fun s => s.get key)

/-- Membership test through a previously taken snapshot. -/
def World.snapContains (w : World) (h : Nat) (key : Bytes) : Option Bool :=
  (w.snaps[h]?).map (fun s => s.contains key)

/-! ## The peekable range iterator (`MemoryDBIter`)

`MemoryDBIter` wraps `Peekable<Range>`: `peeked` is the peek cache of
`Peekable`, `rest` the remaining entries of the underlying range. -/

structure MemoryDBIter where
  peeked : Option (Option (Bytes × Bytes))
  rest : List (Bytes × Bytes)
deriving DecidableEq

/-- `Snapshot::iter` for `MemoryDB`: the range `(Included(from), Unbounded)`
of the map, wrapped into a fresh peekable cursor. -/
def MemoryDB.iter (db : MemoryDB) (from_key : Bytes) : MemoryDBIter :=
  { peeked := none, rest := db.map.filter (fun p => !bytesLt p.1 from_key) }

/-- `Iterator::next` for `MemoryDBIter` (with the successor state explicit). -/
def MemoryDBIter.next : MemoryDBIter → Option (Bytes × Bytes) × MemoryDBIter
  | ⟨some p, rest⟩ => (p, ⟨none, rest⟩)
  | ⟨none, []⟩ => (none, ⟨none, []⟩)
  | ⟨none, x :: xs⟩ => (some x, ⟨none, xs⟩)

/-- `Iterator::peek` for `MemoryDBIter` (with the successor state explicit). -/
def MemoryDBIter.peek : MemoryDBIter → Option (Bytes × Bytes) × MemoryDBIter
  | ⟨some p, rest⟩ => (p, ⟨some p, rest⟩)
  | ⟨none, []⟩ => (none, ⟨some none, []⟩)
  | ⟨none, x :: xs⟩ => (some x, ⟨some (some x), xs⟩)

/-- The outputs of `n` successive `next` calls. -/
def MemoryDBIter.run : Nat → MemoryDBIter → List (Option (Bytes × Bytes))
  | 0, _ => []
  | n + 1, it => (it.next).1 :: MemoryDBIter.run n (it.next).2

/-! ## The dispatcher call chain of the Rust runtime test service

`src/exonum/src/runtime/rust/tests.rs` defines `TestServiceImpl` with
`method_a` (method id 0) and `method_b` (method id 1), registered as
instance id 2.  `method_a` writes its argument under the `Entry` named
`method_a_entry` and then re-entrantly dispatches method 1 on the same
instance through `context.call`, which runs `method_b` on the same fork;
`method_b` writes the argument under `method_b_entry`. -/

/-- A fork: named `Entry` indexes over a shared mutable overlay.  An
`Entry::set` prepends the binding; reads take the most recent binding,
which is exactly the observable behaviour of overwriting the slot. -/
abbrev Fork := List (String × Nat)

/-- `Entry::new(name, fork).set(value)`. -/
def entrySet (fork : Fork) (name : String) (value : Nat) : Fork :=
  (name, value) :: fork

/-- `Entry::new(name, fork).get()`. -/
def entryGet (fork : Fork) (name : String) : Option Nat :=
  match fork with
  | [] => none
  | (n, v) :: rest => if n = name then some v else entryGet rest name

/-- `CallInfo { instance_id, method_id }` (the dispatcher routing key). -/
structure CallInfo where
  instance_id : Nat
  method_id : Nat
deriving DecidableEq

/-- Method-level failure surfaced by the dispatcher. -/
inductive ExecutionError
  | unknownInstance
  | unknownMethod
deriving DecidableEq

/-- `SERVICE_INSTANCE_ID` from tests.rs. -/
def SERVICE_INSTANCE_ID : Nat := 2

/-- `TestServiceImpl::method_b` (tests.rs lines 94-99): write the payload
value under `method_b_entry` on the context's fork and return `Ok(())`. -/
def method_b (fork : Fork) (value : Nat) : Except ExecutionError Fork :=
  Except.ok (entrySet fork "method_b_entry" value)

/-- Modelled from the spec: the `Dispatcher::call` resolution for the
re-entrant call issued inside `method_a` (`Dispatcher`, `ExecutionContext`
and `Entry` live outside src/; per spec section 4.4 the dispatcher resolves
`call_info.instance_id` against the registry — here the single registered
instance id 2 with methods 0 and 1 — and invokes the target method on the
same fork, failing with `UnknownInstance` otherwise).  The call chain of
the test has depth two, so the nested dispatch can only reach method 1. -/
def dispatchNested (fork : Fork) (ci : CallInfo) (value : Nat) :
    Except ExecutionError Fork :=
  if ci.instance_id = SERVICE_INSTANCE_ID then
    match ci.method_id with
    | 1 => method_b fork value
    | _ => Except.error ExecutionError.unknownMethod
  else Except.error ExecutionError.unknownInstance

/-- `TestServiceImpl::method_a` (tests.rs lines 74-92): write the payload
value under `method_a_entry`, then re-entrantly call method 1 of instance
`SERVICE_INSTANCE_ID` with the same value through the dispatcher. -/
def method_a (fork : Fork) (value : Nat) : Except ExecutionError Fork :=
  let fork1 := entrySet fork "method_a_entry" value
  dispatchNested fork1 ⟨SERVICE_INSTANCE_ID, 1⟩ value

/-- Modelled from the spec: the top-level `Dispatcher::call` (spec section
4.4) — resolve the instance, then route by method id to `method_a` or
`method_b` of the test service. -/
def dispatcherCall (fork : Fork) (ci : CallInfo) (value : Nat) :
    Except ExecutionError Fork :=
  if ci.instance_id = SERVICE_INSTANCE_ID then
    match ci.method_id with
    | 0 => method_a fork value
    | 1 => method_b fork value
    | _ => Except.error ExecutionError.unknownMethod
  else Except.error ExecutionError.unknownInstance

/-! ## The time-consolidation policy (src/tests/test_exonum_time.rs)

`SystemTime` values are embedded as `Nat`.  `get_expected_storage_time`
is the reference consolidation policy from the test file: keep the
submitted (non-`None`) values, bail out with `None` unless strictly more
than `2 * max_byzantine_nodes` of them exist, sort them descending and
take the entry at index `max_byzantine_nodes`. -/

/-- `times.sort_by(|a, b| b.cmp(a))`: sort descending. -/
def sortDesc (l : List Nat) : List Nat :=
  List.insertionSort (fun a b : Nat => b ≤ a) l

instance : IsTotal Nat (fun a b : Nat => b ≤ a) :=
  ⟨fun a b => le_total b a⟩

instance : IsTrans Nat (fun a b : Nat => b ≤ a) :=
  ⟨fun _ _ _ h1 h2 => le_trans h2 h1⟩

/-- `get_expected_storage_time` (test_exonum_time.rs lines 216-230). -/
def get_expected_storage_time (validators_times : List (Option Nat)) : Option Nat :=
  let max_byzantine_nodes := (validators_times.length - 1) / 3
  let times := validators_times.filterMap id
  if times.length ≤ 2 * max_byzantine_nodes then none
  else (sortDesc times)[max_byzantine_nodes]?

/-! ## The `TxTime` transaction of the time service

The `exonum_time` service implementation lives outside src/; only its
tests are given.  Its transition is modelled below. -/

/-- State of the time service schema: the current validator set (by
service public key, embedded as `Nat`), the stored per-validator times
(`validators_time` index) and the consolidated time (`time` entry). -/
structure TimeState where
  validators : List Nat
  validators_time : List (Nat × Nat)
  time : Option Nat
deriving DecidableEq

/-- Lookup of a validator's stored time. -/
def lookupTime (vt : List (Nat × Nat)) (pk : Nat) : Option Nat :=
  match vt with
  | [] => none
  | (q, u) :: rest => if q = pk then some u else lookupTime rest pk

/-- Store a validator's time, replacing any previous binding. -/
def storeTime (vt : List (Nat × Nat)) (pk t : Nat) : List (Nat × Nat) :=
  match vt with
  | [] => [(pk, t)]
  | (q, u) :: rest => if q = pk then (q, t) :: rest else (q, u) :: storeTime rest pk t

/-- Modelled from the spec: the state update performed by an accepted
`TxTime` — record the submitter's time, recompute the consolidation policy
of spec section 8C over the current validators' stored times, and advance
the consolidated time only if the recomputed value exceeds it (the tests
assert the consolidated time never decreases). -/
def txTimeUpdate (st : TimeState) (pk t : Nat) : TimeState :=
  let vt := storeTime st.validators_time pk t
  let candidate := get_expected_storage_time (st.validators.map (lookupTime vt))
  let time :=
    match candidate, st.time with
    | some c, some cur => if cur < c then some c else some cur
    | some c, none => some c
    | none, cur => cur
  { st with validators_time := vt, time := time }

/-- Modelled from the spec: `TxTime::execute` of the `exonum_time` service
(not under src/).  Per spec section 8C each submitter writes its own value;
per the tests a transaction is ignored when the sender is not a current
validator or when its time does not exceed the sender's stored time. -/
def txTimeExecute (st : TimeState) (pk t : Nat) : TimeState :=
  if st.validators.contains pk then
    match lookupTime st.validators_time pk with
    | some o => if o < t then txTimeUpdate st pk t else st
    | none => txTimeUpdate st pk t
  else st

theorem bytesLt_irrefl (a : Bytes) : bytesLt a a = false := by
  induction a with
  | nil => rfl
  | cons x xs ih => simp [bytesLt, ih]

theorem bytesLt_trans :
    ∀ (a b c : Bytes), bytesLt a b = true → bytesLt b c = true → bytesLt a c = true
  | _, _, [] => by intro _ h2; simp [bytesLt] at h2
  | [], [], _ :: _ => by intro h1 _; simp [bytesLt] at h1
  | [], _ :: _, _ :: _ => by intro _ _; rfl
  | _ :: _, [], _ :: _ => by intro h1 _; simp [bytesLt] at h1
  | a :: as, b :: bs, c :: cs => by
    intro h1 h2
    simp only [bytesLt] at h1 h2 ⊢
    by_cases hab : a < b
    · by_cases hbc : b < c
      · simp [Nat.lt_trans hab hbc]
      · by_cases hcb : c < b
        · simp [hbc, hcb] at h2
        · have hac : a < c := by omega
          simp [hac]
    · by_cases hba : b < a
      · simp [hab, hba] at h1
      · have heq : a = b := by omega
        subst heq
        simp only [if_neg hab, if_neg hba] at h1
        by_cases hbc : a < c
        · simp [hbc]
        · by_cases hcb : c < a
          · simp [hbc, hcb] at h2
          · simp only [if_neg hbc, if_neg hcb] at h2 ⊢
            exact bytesLt_trans as bs cs h1 h2

theorem bytesLt_total :
    ∀ (a b : Bytes), bytesLt a b = true ∨ a = b ∨ bytesLt b a = true
  | [], [] => Or.inr (Or.inl rfl)
  | [], _ :: _ => Or.inl rfl
  | _ :: _, [] => Or.inr (Or.inr rfl)
  | a :: as, b :: bs => by
    rcases Nat.lt_trichotomy a b with h | h | h
    · left; simp [bytesLt, h]
    · subst h
      rcases bytesLt_total as bs with h' | h' | h'
      · left; simp [bytesLt, h']
      · subst h'; right; left; rfl
      · right; right; simp [bytesLt, h']
    · right; right; simp [bytesLt, h]

theorem bytesLt_asymm {a b : Bytes} (h : bytesLt a b = true) : bytesLt b a = false := by
  by_contra hc
  have hba : bytesLt b a = true := by
    cases hab : bytesLt b a
    · exact absurd hab hc
    · rfl
  have := bytesLt_trans a b a h hba
  rw [bytesLt_irrefl] at this
  exact absurd this (by simp)

theorem bytesLt_ne {a b : Bytes} (h : bytesLt a b = true) : a ≠ b := by
  intro he
  subst he
  rw [bytesLt_irrefl] at h
  exact absurd h (by simp)

theorem mapGet_insert_self (k v : Bytes) (m : List (Bytes × Bytes)) :
    mapGet k (mapInsert k v m) = some v := by
  induction m with
  | nil => simp [mapInsert, mapGet]
  | cons p rest ih =>
    obtain ⟨k', v'⟩ := p
    simp only [mapInsert]
    split
    · simp [mapGet]
    · split
      · simp [mapGet]
      · rename_i hlt hne
        simp only [mapGet, if_neg hne, ih]

theorem mapGet_insert_other (k k' v : Bytes) (m : List (Bytes × Bytes)) (h : k' ≠ k) :
    mapGet k' (mapInsert k v m) = mapGet k' m := by
  have hne : ¬ k = k' := fun he => h he.symm
  induction m with
  | nil => simp only [mapInsert, mapGet, if_neg hne]
  | cons p rest ih =>
    obtain ⟨q, u⟩ := p
    simp only [mapInsert]
    split
    · simp only [mapGet, if_neg hne]
    · split
      · rename_i hq
        subst hq
        simp only [mapGet, if_neg hne]
      · simp only [mapGet, ih]

theorem mapGet_remove_other (k k' : Bytes) (m : List (Bytes × Bytes)) (h : k' ≠ k) :
    mapGet k' (mapRemove k m) = mapGet k' m := by
  have hne : ¬ k = k' := fun he => h he.symm
  induction m with
  | nil => rfl
  | cons p rest ih =>
    obtain ⟨q, u⟩ := p
    simp only [mapRemove]
    split
    · rename_i hq
      subst hq
      simp only [mapGet, if_neg hne]
    · simp only [mapGet, ih]

theorem mapGet_none_of_gt (k : Bytes) (m : List (Bytes × Bytes))
    (h : ∀ p ∈ m, bytesLt k p.1 = true) : mapGet k m = none := by
  induction m with
  | nil => rfl
  | cons p rest ih =>
    obtain ⟨q, u⟩ := p
    have hq : bytesLt k q = true := h (q, u) (List.mem_cons_self _ _)
    have hne : q ≠ k := fun he => bytesLt_ne hq he.symm
    simp only [mapGet, if_neg hne]
    exact ih (fun p hp => h p (List.mem_cons_of_mem _ hp))

theorem mapGet_remove_self (k : Bytes) (m : List (Bytes × Bytes)) (hs : mapSorted m) :
    mapGet k (mapRemove k m) = none := by
  induction m with
  | nil => rfl
  | cons p rest ih =>
    obtain ⟨q, u⟩ := p
    rw [mapSorted, List.pairwise_cons] at hs
    obtain ⟨hq, hrest⟩ := hs
    simp only [mapRemove]
    split
    · rename_i hqe
      subst hqe
      exact mapGet_none_of_gt _ _ (fun p hp => hq p hp)
    · rename_i hne
      simp only [mapGet, if_neg hne]
      exact ih hrest

theorem mapInsert_mem {k v : Bytes} {m : List (Bytes × Bytes)} :
    ∀ p ∈ mapInsert k v m, p = (k, v) ∨ p ∈ m := by
  induction m with
  | nil => intro p hp; simp [mapInsert] at hp; left; exact hp
  | cons q rest ih =>
    intro p hp
    obtain ⟨q1, q2⟩ := q
    simp only [mapInsert] at hp
    split at hp
    · rcases List.mem_cons.1 hp with h | h
      · left; exact h
      · right; exact h
    · split at hp
      · rcases List.mem_cons.1 hp with h | h
        · left; exact h
        · right; exact List.mem_cons_of_mem _ h
      · rcases List.mem_cons.1 hp with h | h
        · right; exact h ▸ List.mem_cons_self _ _
        · rcases ih p h with h' | h'
          · left; exact h'
          · right; exact List.mem_cons_of_mem _ h'

theorem mapSorted_insert {k v : Bytes} {m : List (Bytes × Bytes)} (hs : mapSorted m) :
    mapSorted (mapInsert k v m) := by
  induction m with
  | nil => simp [mapInsert, mapSorted]
  | cons p rest ih =>
    obtain ⟨q, u⟩ := p
    rw [mapSorted, List.pairwise_cons] at hs
    obtain ⟨hq, hrest⟩ := hs
    simp only [mapInsert]
    split
    · rename_i hlt
      rw [mapSorted, List.pairwise_cons]
      refine ⟨?_, ?_⟩
      · intro p hp
        rcases List.mem_cons.1 hp with h | h
        · subst h; exact hlt
        · exact bytesLt_trans _ _ _ hlt (hq p h)
      · exact List.pairwise_cons.2 ⟨hq, hrest⟩
    · split
      · rename_i hlt hqe
        subst hqe
        rw [mapSorted, List.pairwise_cons]
        exact ⟨hq, hrest⟩
      · rename_i hlt hne
        have hqk : bytesLt q k = true := by
          rcases bytesLt_total k q with h | h | h
          · exact absurd h (by simp [hlt])
          · exact absurd h.symm hne
          · exact h
        rw [mapSorted, List.pairwise_cons]
        refine ⟨?_, ih hrest⟩
        intro p hp
        rcases mapInsert_mem p hp with h | h
        · subst h; exact hqk
        · exact hq p h

theorem mapRemove_sublist (k : Bytes) (m : List (Bytes × Bytes)) :
    (mapRemove k m).Sublist m := by
  induction m with
  | nil => exact List.Sublist.refl _
  | cons p rest ih =>
    obtain ⟨q, u⟩ := p
    simp only [mapRemove]
    split
    · exact List.sublist_cons_self _ _
    · exact ih.cons₂ _

theorem mapSorted_remove {k : Bytes} {m : List (Bytes × Bytes)} (hs : mapSorted m) :
    mapSorted (mapRemove k m) :=
  List.Pairwise.sublist (mapRemove_sublist k m) hs

theorem mapContains_eq_isSome (k : Bytes) (m : List (Bytes × Bytes)) :
    mapContains k m = (mapGet k m).isSome := by
  induction m with
  | nil => rfl
  | cons p rest ih =>
    obtain ⟨q, u⟩ := p
    simp only [mapContains, List.any_cons, mapGet] at *
    by_cases h : q = k
    · simp [h]
    · simp [h, ih, mapContains]

theorem mapSorted_applyChange {m : List (Bytes × Bytes)} (hs : mapSorted m)
    (c : Bytes × Change) : mapSorted (applyChange m c) := by
  obtain ⟨k, ch⟩ := c
  cases ch with
  | put v => exact mapSorted_insert hs
  | delete => exact mapSorted_remove hs

theorem mapSorted_foldl {p : Patch} :
    ∀ {m : List (Bytes × Bytes)}, mapSorted m → mapSorted (p.foldl applyChange m) := by
  induction p with
  | nil => intro m hs; exact hs
  | cons c rest ih =>
    intro m hs
    exact ih (mapSorted_applyChange hs c)

theorem applyChange_get_other {m : List (Bytes × Bytes)} {k : Bytes} (c : Bytes × Change)
    (h : c.1 ≠ k) : mapGet k (applyChange m c) = mapGet k m := by
  obtain ⟨k', ch⟩ := c
  cases ch with
  | put v => exact mapGet_insert_other k' k v m (fun he => h he.symm)
  | delete => exact mapGet_remove_other k' k m (fun he => h he.symm)

theorem foldl_get_notMem {p : Patch} {k : Bytes} (h : k ∉ p.map Prod.fst) :
    ∀ (m : List (Bytes × Bytes)), mapGet k (p.foldl applyChange m) = mapGet k m := by
  induction p with
  | nil => intro m; rfl
  | cons c rest ih =>
    intro m
    simp only [List.map_cons, List.mem_cons] at h
    push_neg at h
    obtain ⟨h1, h2⟩ := h
    simp only [List.foldl_cons]
    rw [ih h2, applyChange_get_other c (fun he => h1 he.symm)]

theorem foldl_get_put {p : Patch} {k v : Bytes}
    (hnd : (p.map Prod.fst).Nodup) (hmem : (k, Change.put v) ∈ p) :
    ∀ (m : List (Bytes × Bytes)), mapGet k (p.foldl applyChange m) = some v := by
  induction p with
  | nil => exact absurd hmem (List.not_mem_nil _)
  | cons c rest ih =>
    intro m
    obtain ⟨k', ch⟩ := c
    simp only [List.map_cons, List.nodup_cons] at hnd
    obtain ⟨hk', hnd'⟩ := hnd
    simp only [List.foldl_cons]
    by_cases he : k' = k
    · subst he
      have hc : ch = Change.put v := by
        rcases List.mem_cons.1 hmem with h | h
        · exact (Prod.mk.injEq _ _ _ _ ▸ h).2.symm
        · exact absurd (List.mem_map.2 ⟨_, h, rfl⟩) hk'
      subst hc
      rw [foldl_get_notMem hk', applyChange]
      exact mapGet_insert_self _ _ _
    · have hmem' : (k, Change.put v) ∈ rest := by
        rcases List.mem_cons.1 hmem with h | h
        · exact absurd ((Prod.mk.injEq _ _ _ _ ▸ h).1.symm) he
        · exact h
      exact ih hnd' hmem' _

theorem foldl_get_delete {p : Patch} {k : Bytes}
    (hnd : (p.map Prod.fst).Nodup) (hmem : (k, Change.delete) ∈ p) :
    ∀ (m : List (Bytes × Bytes)), mapSorted m → mapGet k (p.foldl applyChange m) = none := by
  induction p with
  | nil => exact absurd hmem (List.not_mem_nil _)
  | cons c rest ih =>
    intro m hs
    obtain ⟨k', ch⟩ := c
    simp only [List.map_cons, List.nodup_cons] at hnd
    obtain ⟨hk', hnd'⟩ := hnd
    simp only [List.foldl_cons]
    by_cases he : k' = k
    · subst he
      have hc : ch = Change.delete := by
        rcases List.mem_cons.1 hmem with h | h
        · exact (Prod.mk.injEq _ _ _ _ ▸ h).2.symm
        · exact absurd (List.mem_map.2 ⟨_, h, rfl⟩) hk'
      subst hc
      rw [foldl_get_notMem hk', applyChange]
      exact mapGet_remove_self _ _ hs
    · have hmem' : (k, Change.delete) ∈ rest := by
        rcases List.mem_cons.1 hmem with h | h
        · exact absurd ((Prod.mk.injEq _ _ _ _ ▸ h).1.symm) he
        · exact h
      exact ih hnd' hmem' _ (mapSorted_applyChange hs _)

theorem MemoryDBIter.peek_fst_eq_next_fst (it : MemoryDBIter) :
    (it.peek).1 = (it.next).1 := by
  obtain ⟨pk, rest⟩ := it
  cases pk with
  | some p => rfl
  | none => cases rest with
    | nil => rfl
    | cons x xs => rfl

theorem MemoryDBIter.peek_snd_next_eq_next (it : MemoryDBIter) :
    ((it.peek).2).next = it.next := by
  obtain ⟨pk, rest⟩ := it
  cases pk with
  | some p => rfl
  | none => cases rest with
    | nil => rfl
    | cons x xs => rfl

theorem MemoryDBIter.run_peek (n : Nat) (it : MemoryDBIter) :
    MemoryDBIter.run n (it.peek).2 = MemoryDBIter.run n it := by
  cases n with
  | zero => rfl
  | succ n => simp only [MemoryDBIter.run, MemoryDBIter.peek_snd_next_eq_next]

theorem MemoryDBIter.run_fresh (n : Nat) (l : List (Bytes × Bytes)) :
    MemoryDBIter.run n ⟨none, l⟩ =
      (l.map some).take n ++ List.replicate (n - l.length) none := by
  induction n generalizing l with
  | zero => simp [MemoryDBIter.run]
  | succ n ih =>
    cases l with
    | nil =>
      simp only [MemoryDBIter.run, MemoryDBIter.next, List.map_nil, List.take_nil,
        List.nil_append, List.length_nil, Nat.sub_zero, List.replicate_succ]
      rw [ih []]
      simp
    | cons x xs =>
      simp only [MemoryDBIter.run, MemoryDBIter.next, List.map_cons, List.take_succ_cons,
        List.length_cons, List.cons_append, Nat.succ_sub_succ]
      rw [ih xs]

/-! ## Claims about `MemoryDB` -/

/-- C1: for every `MemoryDB` store, every snapshot obtained from it via
`snapshot()`, every patch and every key, `get` and `contains` through that
snapshot after the store executes `merge` equal their results before the
merge — and both observe exactly the pre-merge store contents. -/
theorem snapshot_isolated_from_merge (w w2 : World) (p : Patch) (k : Bytes)
    (hm : World.merge (World.snapshot w).1 p = Except.ok w2) :
    World.snapGet w2 (World.snapshot w).2 k =
      World.snapGet (World.snapshot w).1 (World.snapshot w).2 k ∧
    World.snapContains w2 (World.snapshot w).2 k =
      World.snapContains (World.snapshot w).1 (World.snapshot w).2 k ∧
    World.snapGet (World.snapshot w).1 (World.snapshot w).2 k =
      some (w.store.get k) := by
  simp only [World.snapshot, World.merge, MemoryDB.merge, MemoryDB.snapshot] at hm ⊢
  have hw2 : w2 = ⟨⟨p.foldl applyChange w.store.map⟩, w.snaps ++ [w.store]⟩ := by
    injection hm with h
    exact h.symm
  subst hw2
  refine ⟨rfl, rfl, ?_⟩
  simp only [World.snapGet, List.getElem?_concat_length, Option.map_some']

theorem snapshot_isolated_from_merge_witness :
    World.snapGet ⟨⟨[([0], [1])]⟩, [⟨[]⟩]⟩ 0 [0] =
      World.snapGet ⟨⟨[]⟩, [⟨[]⟩]⟩ 0 [0] ∧
    World.snapContains ⟨⟨[([0], [1])]⟩, [⟨[]⟩]⟩ 0 [0] =
      World.snapContains ⟨⟨[]⟩, [⟨[]⟩]⟩ 0 [0] ∧
    World.snapGet ⟨⟨[]⟩, [⟨[]⟩]⟩ 0 [0] = some (MemoryDB.get ⟨[]⟩ [0]) :=
  snapshot_isolated_from_merge ⟨⟨[]⟩, []⟩ ⟨⟨[([0], [1])]⟩, [⟨[]⟩]⟩
    [([0], Change.put [1])] [0] rfl

/-- C2: after `merge(P)` returns `Ok(())`, `get k` yields `v` when `P` maps
`k` to `Put(v)`, `none` when `P` maps `k` to `Delete`, and is unchanged when
`P` has no change for `k`. -/
theorem merge_applies_exactly_patch (db db' : MemoryDB) (p : Patch)
    (hs : mapSorted db.map) (hnd : (p.map Prod.fst).Nodup)
    (hm : db.merge p = Except.ok db') :
    (∀ k v, (k, Change.put v) ∈ p → db'.get k = some v) ∧
    (∀ k, (k, Change.delete) ∈ p → db'.get k = none) ∧
    (∀ k, k ∉ p.map Prod.fst → db'.get k = db.get k) := by
  have hdb' : db' = ⟨p.foldl applyChange db.map⟩ := by
    simp only [MemoryDB.merge] at hm
    injection hm with h
    exact h.symm
  subst hdb'
  refine ⟨?_, ?_, ?_⟩
  · intro k v hmem
    exact foldl_get_put hnd hmem _
  · intro k hmem
    exact foldl_get_delete hnd hmem _ hs
  · intro k hk
    exact foldl_get_notMem hk _

theorem merge_applies_exactly_patch_witness :
    MemoryDB.get ⟨[([1], [7])]⟩ [1] = some [7] ∧
    MemoryDB.get ⟨[([1], [7])]⟩ [0] = none ∧
    MemoryDB.get ⟨[([1], [7])]⟩ [2] = MemoryDB.get ⟨[([0], [5])]⟩ [2] :=
  ⟨(merge_applies_exactly_patch ⟨[([0], [5])]⟩ ⟨[([1], [7])]⟩
      [([0], Change.delete), ([1], Change.put [7])]
      (by decide) (by decide) rfl).1 [1] [7] (by decide),
   (merge_applies_exactly_patch ⟨[([0], [5])]⟩ ⟨[([1], [7])]⟩
      [([0], Change.delete), ([1], Change.put [7])]
      (by decide) (by decide) rfl).2.1 [0] (by decide),
   (merge_applies_exactly_patch ⟨[([0], [5])]⟩ ⟨[([1], [7])]⟩
      [([0], Change.delete), ([1], Change.put [7])]
      (by decide) (by decide) rfl).2.2 [2] (by decide)⟩

/-- C8: `MemoryDB::merge` returns `Ok(())` for every patch and every store
state. -/
theorem merge_never_fails (db : MemoryDB) (p : Patch) :
    ∃ db', db.merge p = Except.ok db' :=
  ⟨_, rfl⟩

/-- C10: for every `MemoryDB` snapshot and key, `contains` is `true` exactly
when `get` returns some value. -/
theorem contains_iff_get_isSome (db : MemoryDB) (key : Bytes) :
    db.contains key = (db.get key).isSome :=
  mapContains_eq_isSome key db.map

/-- C6: `iter(from_key)` enumerates exactly the pairs of the snapshot whose
key is lexicographically at least `from_key`, in strictly ascending key
order; the run of `next` outputs is the pair list followed by `none`
forever, and its length is bounded by the snapshot's key count. -/
theorem iter_enumerates_range (db : MemoryDB) (from_key : Bytes)
    (hs : mapSorted db.map) :
    (∀ k v, (k, v) ∈ (db.iter from_key).rest ↔
      ((k, v) ∈ db.map ∧ bytesLt k from_key = false)) ∧
    List.Pairwise (fun a b => bytesLt a.1 b.1 = true) (db.iter from_key).rest ∧
    (db.iter from_key).rest.length ≤ db.map.length ∧
    (∀ n : Nat, MemoryDBIter.run n (db.iter from_key) =
      ((db.iter from_key).rest.map some).take n ++
        List.replicate (n - (db.iter from_key).rest.length) none) := by
  refine ⟨?_, ?_, ?_, ?_⟩
  · intro k v
    simp only [MemoryDB.iter, List.mem_filter, Bool.not_eq_true']
  · exact List.Pairwise.filter _ hs
  · exact List.length_filter_le _ _
  · intro n
    exact MemoryDBIter.run_fresh n _

theorem iter_enumerates_range_witness :
    (([1], [6]) ∈ (MemoryDB.iter ⟨[([0], [5]), ([1], [6])]⟩ [1]).rest ↔
      (([1], [6]) ∈ (MemoryDB.mk [([0], [5]), ([1], [6])]).map ∧
        bytesLt [1] [1] = false)) ∧
    MemoryDBIter.run 3 (MemoryDB.iter ⟨[([0], [5]), ([1], [6])]⟩ [1]) =
      ((MemoryDB.iter ⟨[([0], [5]), ([1], [6])]⟩ [1]).rest.map some).take 3 ++
        List.replicate
          (3 - (MemoryDB.iter ⟨[([0], [5]), ([1], [6])]⟩ [1]).rest.length) none :=
  ⟨(iter_enumerates_range ⟨[([0], [5]), ([1], [6])]⟩ [1] (by decide)).1 [1] [6],
   (iter_enumerates_range ⟨[([0], [5]), ([1], [6])]⟩ [1] (by decide)).2.2.2 3⟩

/-- C7: in every iterator state, `peek` returns the same item an immediately
following `next` returns, and peeking (once or repeatedly) never changes the
sequence of items that subsequent `next` calls produce. -/
theorem peek_agrees_with_next (it : MemoryDBIter) :
    ((it.peek).2.next).1 = (it.peek).1 ∧
    (∀ n : Nat, MemoryDBIter.run n (it.peek).2 = MemoryDBIter.run n it) ∧
    (it.peek).2.peek = ((it.peek).1, (it.peek).2) := by
  refine ⟨?_, fun n => MemoryDBIter.run_peek n it, ?_⟩
  · rw [MemoryDBIter.peek_snd_next_eq_next, ← MemoryDBIter.peek_fst_eq_next_fst]
  · obtain ⟨pk, rest⟩ := it
    cases pk with
    | some p => rfl
    | none =>
      cases rest with
      | nil => rfl
      | cons x xs => rfl

/-! ## Claim about the dispatcher call chain -/

/-- C3: invoking method 0 of instance 2 with value `v` on a fork succeeds
and leaves both `method_a_entry` and `method_b_entry` equal to `v` when read
through that same fork — before any merge into the store. -/
theorem method_a_reentrant_writes (fork : Fork) (v : Nat) :
    ∃ fork', dispatcherCall fork ⟨2, 0⟩ v = Except.ok fork' ∧
      entryGet fork' "method_a_entry" = some v ∧
      entryGet fork' "method_b_entry" = some v := by
  refine ⟨entrySet (entrySet fork "method_a_entry" v) "method_b_entry" v, ?_, ?_, ?_⟩
  · rfl
  · simp [entryGet, entrySet]
  · simp [entryGet, entrySet]

/-! ## Lemmas about the time-consolidation policy -/

theorem sortDesc_perm (l : List Nat) : (sortDesc l).Perm l :=
  List.perm_insertionSort _ l

theorem sortDesc_sorted (l : List Nat) :
    List.Pairwise (fun a b : Nat => b ≤ a) (sortDesc l) :=
  List.sorted_insertionSort _ l

theorem sortDesc_length (l : List Nat) : (sortDesc l).length = l.length :=
  (sortDesc_perm l).length_eq

theorem lookupTime_storeTime_self (vt : List (Nat × Nat)) (pk t : Nat) :
    lookupTime (storeTime vt pk t) pk = some t := by
  induction vt with
  | nil => simp [storeTime, lookupTime]
  | cons p rest ih =>
    obtain ⟨q, u⟩ := p
    simp only [storeTime]
    split
    · rename_i hq
      simp [lookupTime, hq]
    · rename_i hq
      simp [lookupTime, hq, ih]

theorem lookupTime_storeTime_other (vt : List (Nat × Nat)) (pk pk' t : Nat)
    (h : pk' ≠ pk) : lookupTime (storeTime vt pk t) pk' = lookupTime vt pk' := by
  have hne : ¬ pk = pk' := fun he => h he.symm
  induction vt with
  | nil => simp [storeTime, lookupTime, hne]
  | cons p rest ih =>
    obtain ⟨q, u⟩ := p
    simp only [storeTime]
    split
    · rename_i hq
      subst hq
      simp [lookupTime, hne]
    · simp only [lookupTime, ih]

/-! ## Claims about the time-consolidation policy -/

/-- C4 as stated is refuted: with `N = 4` submitters of which 2 have
submitted, strictly more than `⌊(N-1)/3⌋ = 1` values are present, yet the
consolidated value is still absent. -/
theorem agreed_threshold_counterexample :
    (([some 0, some 10, none, none] : List (Option Nat)).length - 1) / 3 <
      (([some 0, some 10, none, none] : List (Option Nat)).filterMap id).length ∧
    get_expected_storage_time [some 0, some 10, none, none] = none := by
  decide

/-- C4 (amended): the consolidated value is absent while at most
`2 * ⌊(N-1)/3⌋` values have been submitted, and is defined as soon as more
than `2 * ⌊(N-1)/3⌋` values have been submitted. -/
theorem agreed_defined_iff (validators_times : List (Option Nat)) :
    (get_expected_storage_time validators_times).isSome = true ↔
      2 * ((validators_times.length - 1) / 3) <
        (validators_times.filterMap id).length := by
  simp only [get_expected_storage_time]
  by_cases h : (validators_times.filterMap id).length ≤
      2 * ((validators_times.length - 1) / 3)
  · rw [if_pos h]
    simp only [Option.isSome_none, Bool.false_eq_true, false_iff, not_lt]
    exact h
  · rw [if_neg h]
    have hlen : (validators_times.length - 1) / 3 <
        (sortDesc (validators_times.filterMap id)).length := by
      rw [sortDesc_length]
      omega
    rw [List.getElem?_eq_getElem hlen]
    simp only [Option.isSome_some, true_iff]
    omega

/-- C5: whenever the consolidated value is defined, it is the
`(⌊(N-1)/3⌋+1)`-th largest of the submitted values: it sits at index
`⌊(N-1)/3⌋` of a descending-sorted permutation of the submitted values, at
least `⌊(N-1)/3⌋+1` submitted values are `≥` it and at most `⌊(N-1)/3⌋` are
`>` it.  In particular, with four submitters at `0 < 10 < 20 < 30`
submitted in order, the value is `10` after the third submission and `20`
after the fourth. -/
theorem consolidated_is_kth_largest :
    (∀ (validators_times : List (Option Nat)) (v : Nat),
      get_expected_storage_time validators_times = some v →
      (∃ s : List Nat, List.Pairwise (fun a b : Nat => b ≤ a) s ∧
        s.Perm (validators_times.filterMap id) ∧
        s[(validators_times.length - 1) / 3]? = some v) ∧
      (validators_times.length - 1) / 3 + 1 ≤
        (validators_times.filterMap id).countP (fun t => decide (v ≤ t)) ∧
      (validators_times.filterMap id).countP (fun t => decide (v < t)) ≤
        (validators_times.length - 1) / 3) ∧
    get_expected_storage_time [some 0, some 10, some 20, none] = some 10 ∧
    get_expected_storage_time [some 0, some 10, some 20, some 30] = some 20 := by
  refine ⟨?_, by decide, by decide⟩
  intro validators_times v h
  simp only [get_expected_storage_time] at h
  split at h
  · exact absurd h (by simp)
  · rename_i hguard
    rw [not_le] at hguard
    set m := (validators_times.length - 1) / 3 with hmdef
    set times := validators_times.filterMap id with htdef
    set s := sortDesc times with hsdef
    obtain ⟨hm, hv⟩ := List.getElem?_eq_some.1 h
    have hsort : List.Pairwise (fun a b : Nat => b ≤ a) s := sortDesc_sorted times
    have hperm : s.Perm times := sortDesc_perm times
    have hpg := List.pairwise_iff_getElem.1 hsort
    refine ⟨⟨s, hsort, hperm, h⟩, ?_, ?_⟩
    · rw [← hperm.countP_eq]
      have htake : List.countP (fun t => decide (v ≤ t)) (s.take (m + 1)) =
          (s.take (m + 1)).length := by
        rw [List.countP_eq_length]
        intro a ha
        rcases List.mem_iff_getElem.1 ha with ⟨i, hi, hia⟩
        have hi' : i < m + 1 ∧ i < s.length := by
          rw [List.length_take] at hi
          omega
        have hx : s[i] = a := by
          rw [← hia, List.getElem_take]
        have hvi : v ≤ s[i] := by
          rcases Nat.lt_or_ge i m with hlt | hge
          · have := hpg i m hi'.2 hm hlt
            omega
          · have hieq : i = m := by omega
            subst hieq
            omega
        rw [hx] at hvi
        simpa using hvi
      have hsplit : List.countP (fun t => decide (v ≤ t)) s =
          List.countP (fun t => decide (v ≤ t)) (s.take (m + 1)) +
          List.countP (fun t => decide (v ≤ t)) (s.drop (m + 1)) := by
        conv_lhs => rw [← List.take_append_drop (m + 1) s]
        rw [List.countP_append]
      rw [hsplit, htake, List.length_take]
      omega
    · rw [← hperm.countP_eq]
      have hdrop : List.countP (fun t => decide (v < t)) (s.drop m) = 0 := by
        rw [List.countP_eq_zero]
        intro a ha
        rcases List.mem_iff_getElem.1 ha with ⟨j, hj, hja⟩
        have hj' : m + j < s.length := by
          rw [List.length_drop] at hj
          omega
        have hsa : s[m + j] = a := by
          rw [← hja, List.getElem_drop]
        have hle : s[m + j] ≤ v := by
          rcases Nat.eq_zero_or_pos j with h0 | hpos
          · subst h0
            simp only [Nat.add_zero]
            omega
          · have := hpg m (m + j) hm hj' (by omega)
            omega
        rw [hsa] at hle
        simp only [decide_eq_true_eq, not_lt]
        exact hle
      have hsplit : List.countP (fun t => decide (v < t)) s =
          List.countP (fun t => decide (v < t)) (s.take m) +
          List.countP (fun t => decide (v < t)) (s.drop m) := by
        conv_lhs => rw [← List.take_append_drop m s]
        rw [List.countP_append]
      rw [hsplit, hdrop, Nat.add_zero]
      have := List.countP_le_length (fun t => decide (v < t)) (l := s.take m)
      rw [List.length_take] at this
      omega

theorem consolidated_is_kth_largest_witness :
    (∃ s : List Nat, List.Pairwise (fun a b : Nat => b ≤ a) s ∧
      s.Perm (([some 0, some 10, some 20, none] : List (Option Nat)).filterMap id) ∧
      s[(([some 0, some 10, some 20, none] : List (Option Nat)).length - 1) / 3]? =
        some 10) ∧
    (([some 0, some 10, some 20, none] : List (Option Nat)).length - 1) / 3 + 1 ≤
      (([some 0, some 10, some 20, none] : List (Option Nat)).filterMap id).countP
        (fun t => decide (10 ≤ t)) ∧
    (([some 0, some 10, some 20, none] : List (Option Nat)).filterMap id).countP
        (fun t => decide (10 < t)) ≤
      (([some 0, some 10, some 20, none] : List (Option Nat)).length - 1) / 3 :=
  consolidated_is_kth_largest.1 [some 0, some 10, some 20, none] 10 (by decide)

/-- C9: a `TxTime` submission from a current validator whose time is less
than that validator's stored time leaves the stored times and the
consolidated time unchanged; more generally, stored validator times and the
consolidated time never decrease under any submission. -/
theorem times_never_decrease (st : TimeState) (pk t : Nat) :
    (∀ o : Nat, st.validators.contains pk = true →
      lookupTime st.validators_time pk = some o → t < o →
      (txTimeExecute st pk t).validators_time = st.validators_time ∧
      (txTimeExecute st pk t).time = st.time) ∧
    (∀ q o : Nat, lookupTime st.validators_time q = some o →
      ∃ u, lookupTime (txTimeExecute st pk t).validators_time q = some u ∧ o ≤ u) ∧
    (∀ c : Nat, st.time = some c →
      ∃ d, (txTimeExecute st pk t).time = some d ∧ c ≤ d) := by
  have hupdate_time : ∀ c : Nat, st.time = some c →
      ∃ d, (txTimeUpdate st pk t).time = some d ∧ c ≤ d := by
    intro c hc
    simp only [txTimeUpdate, hc]
    cases hcand : get_expected_storage_time
        (st.validators.map (lookupTime (storeTime st.validators_time pk t))) with
    | none => exact ⟨c, rfl, le_refl c⟩
    | some c2 =>
      by_cases hlt : c < c2
      · exact ⟨c2, by simp [hlt], le_of_lt hlt⟩
      · exact ⟨c, by simp [hlt], le_refl c⟩
  refine ⟨?_, ?_, ?_⟩
  · intro o hval hlk hlt
    have hnlt : ¬ o < t := by omega
    constructor <;> simp only [txTimeExecute, if_pos hval, hlk, if_neg hnlt]
  · intro q o hq
    by_cases hval : st.validators.contains pk
    · cases hlk : lookupTime st.validators_time pk with
      | none =>
        have hexe : txTimeExecute st pk t = txTimeUpdate st pk t := by
          simp only [txTimeExecute, if_pos hval, hlk]
        rw [hexe]
        by_cases hqp : q = pk
        · subst hqp
          rw [hq] at hlk
          exact absurd hlk (by simp)
        · refine ⟨o, ?_, le_refl o⟩
          simp only [txTimeUpdate]
          rw [lookupTime_storeTime_other _ _ _ _ hqp, hq]
      | some o' =>
        by_cases hlt : o' < t
        · have hexe : txTimeExecute st pk t = txTimeUpdate st pk t := by
            simp only [txTimeExecute, if_pos hval, hlk, if_pos hlt]
          rw [hexe]
          by_cases hqp : q = pk
          · subst hqp
            rw [hq] at hlk
            injection hlk with ho
            refine ⟨t, ?_, by omega⟩
            simp only [txTimeUpdate]
            rw [lookupTime_storeTime_self]
          · refine ⟨o, ?_, le_refl o⟩
            simp only [txTimeUpdate]
            rw [lookupTime_storeTime_other _ _ _ _ hqp, hq]
        · have hexe : txTimeExecute st pk t = st := by
            simp only [txTimeExecute, if_pos hval, hlk, if_neg hlt]
          rw [hexe]
          exact ⟨o, hq, le_refl o⟩
    · have hexe : txTimeExecute st pk t = st := by
        simp only [txTimeExecute, if_neg hval]
      rw [hexe]
      exact ⟨o, hq, le_refl o⟩
  · intro c hc
    by_cases hval : st.validators.contains pk
    · cases hlk : lookupTime st.validators_time pk with
      | none =>
        have hexe : txTimeExecute st pk t = txTimeUpdate st pk t := by
          simp only [txTimeExecute, if_pos hval, hlk]
        rw [hexe]
        exact hupdate_time c hc
      | some o' =>
        by_cases hlt : o' < t
        · have hexe : txTimeExecute st pk t = txTimeUpdate st pk t := by
            simp only [txTimeExecute, if_pos hval, hlk, if_pos hlt]
          rw [hexe]
          exact hupdate_time c hc
        · have hexe : txTimeExecute st pk t = st := by
            simp only [txTimeExecute, if_pos hval, hlk, if_neg hlt]
          rw [hexe]
          exact ⟨c, hc, le_refl c⟩
    · have hexe : txTimeExecute st pk t = st := by
        simp only [txTimeExecute, if_neg hval]
      rw [hexe]
      exact ⟨c, hc, le_refl c⟩

theorem times_never_decrease_witness :
    ((txTimeExecute ⟨[1], [(1, 5)], some 5⟩ 1 3).validators_time = [(1, 5)] ∧
      (txTimeExecute ⟨[1], [(1, 5)], some 5⟩ 1 3).time = some 5) ∧
    (∃ u, lookupTime (txTimeExecute ⟨[1], [(1, 5)], some 5⟩ 1 3).validators_time 1 =
        some u ∧ 5 ≤ u) ∧
    (∃ d, (txTimeExecute ⟨[1], [(1, 5)], some 5⟩ 1 3).time = some d ∧ 5 ≤ d) :=
  ⟨(times_never_decrease ⟨[1], [(1, 5)], some 5⟩ 1 3).1 5 (by decide) (by decide)
      (by decide),
   (times_never_decrease ⟨[1], [(1, 5)], some 5⟩ 1 3).2.1 1 5 (by decide),
   (times_never_decrease ⟨[1], [(1, 5)], some 5⟩ 1 3).2.2 5 (by decide)⟩

end Exonum
